import Mathlib

/-
Shallow embedding of the text-analysis core of the repository
(src/analyzer.py: class TextAnalyzer with normalize_word, is_target_word,
analyze_text).

Modelling choices, each traceable to the source:
  * a Python string is a `List Char`; Python slicing `s[:i]` / `s[j:]` is
    `List.take i` / `List.drop j` (both clamp out-of-range indices exactly
    like Python slices on non-negative indices);
  * `str.lower()` is an abstract parameter `low : List Char → List Char`
    (the host's Unicode lowercasing, a black box to the core);
  * the morphological engine `self.morph.parse`, an external black box
    (pymorphy3), is a parameter
    `morph : List Char → Except PyErr (List (List Char))` returning the
    ranked list of the parses' normal forms, or an error if the engine
    itself raises;
  * the tokenizer (razdel.tokenize), an external black box, is a parameter
    `tok : List Char → List Token`; its documented guarantees (offsets
    valid, token text equals the slice, tokens ordered and disjoint) are
    the decidable predicate `tokensOK` used as a hypothesis;
  * Python dicts keyed by strings (`self.cache`, `self.words_lemma`,
    `stats`) are association lists; `self.target_words` (a set built from
    the lowercased target words) is a list queried through `low`;
  * the `print(...)` debug statements in normalize_word and the engine
    invocation are recorded in an `Event` trace, so that I/O and engine
    calls are observable in the model;
  * Python exceptions are `Except PyErr`; the core has no try/except, so
    an error aborts the whole call (trace of an aborted call is dropped).
-/

namespace Yat

deriving instance DecidableEq for Except

/-- Python-level failures that can escape the core: an IndexError from
`parsed[0]` on an empty parse list, or the engine itself raising. -/
inductive PyErr where
  | indexError : PyErr
  | engineFailed : PyErr
deriving DecidableEq, Repr

/-- Observable events of one call: the two debug `print` statements of
normalize_word, and the invocation of the morphological engine. -/
inductive Event where
  | printDict : List Char → List Char → Event
  | engineCall : List Char → Event
  | printEngine : List Char → List Char → Event
deriving DecidableEq, Repr

/-- A razdel token: surface text plus half-open character span [start, stop). -/
structure Token where
  text : List Char
  start : Nat
  stop : Nat
deriving DecidableEq, Repr

/-- A match dict `{"word": ..., "normal": ..., "start": ..., "end": ...}`
from analyze_text; the `end` key is named `stop` (`end` is a Lean keyword). -/
structure MatchRec where
  word : List Char
  normal : List Char
  start : Nat
  stop : Nat
deriving DecidableEq, Repr

/-- The lemma cache / override dict: association list from lowercased
surface form to lemma. -/
abbrev Cache := List (List Char × List Char)

/-- Result of one successful normalize_word call: the returned value, the
cache after the call, and the printed/engine events. -/
structure NormResult where
  value : List Char
  cache : Cache
  events : List Event
deriving DecidableEq, Repr

/-- TextAnalyzer.normalize_word (src/analyzer.py lines 21-36), faithfully:
check the cache; else check words_lemma (printing the dict-hit line); else
call the engine and print `parsed[0].normal_form` — on an empty parse list
that very print raises IndexError before the `if parsed else word_lower`
fallback can run, so the empty-parse case is an error, not a fallback. -/
def normalize_word (low : List Char → List Char)
    (morph : List Char → Except PyErr (List (List Char)))
    (words_lemma : Cache) (cache : Cache) (word : List Char) :
    Except PyErr NormResult :=
  let word_lower := low word
  match cache.lookup word_lower with
  | some v => .ok ⟨v, cache, []⟩
  | none =>
    match words_lemma.lookup word_lower with
    | some l =>
      .ok ⟨low l, (word_lower, low l) :: cache, [.printDict word_lower l]⟩
    | none =>
      match morph word_lower with
      | .error _ => .error .engineFailed
      | .ok [] => .error .indexError
      | .ok (nf :: _) =>
        .ok ⟨low nf, (word_lower, low nf) :: cache,
             [.engineCall word_lower, .printEngine word_lower nf]⟩

/-- TextAnalyzer.is_target_word: `self.normalize_word(word) in self.target_words`,
where `self.target_words = set(w.lower() for w in target_words)`. -/
def is_target_word (low : List Char → List Char)
    (morph : List Char → Except PyErr (List (List Char)))
    (words_lemma : Cache) (target_words : List (List Char))
    (cache : Cache) (word : List Char) :
    Except PyErr (Bool × Cache × List Event) :=
  match normalize_word low morph words_lemma cache word with
  | .error e => .error e
  | .ok r => .ok ((target_words.map low).contains r.value, r.cache, r.events)

/-- Accumulated state of the token loop of analyze_text. -/
structure LoopOut where
  matches' : List MatchRec
  cache : Cache
  events : List Event
deriving DecidableEq, Repr

/-- The `for token in tokenize(text)` loop of analyze_text: membership test
via is_target_word, then — exactly as in the source — a second
normalize_word call to fill the `normal` field of the appended match. -/
def analyzeTokens (low : List Char → List Char)
    (morph : List Char → Except PyErr (List (List Char)))
    (words_lemma : Cache) (target_words : List (List Char)) :
    List Token → Cache → Except PyErr LoopOut
  | [], cache => .ok ⟨[], cache, []⟩
  | t :: ts, cache =>
    match is_target_word low morph words_lemma target_words cache t.text with
    | .error e => .error e
    | .ok (b, cache1, ev1) =>
      if b then
        match normalize_word low morph words_lemma cache1 t.text with
        | .error e => .error e
        | .ok r2 =>
          match analyzeTokens low morph words_lemma target_words ts r2.cache with
          | .error e => .error e
          | .ok o =>
            .ok ⟨⟨t.text, r2.value, t.start, t.stop⟩ :: o.matches', o.cache,
                 ev1 ++ r2.events ++ o.events⟩
      else
        match analyzeTokens low morph words_lemma target_words ts cache1 with
        | .error e => .error e
        | .ok o => .ok ⟨o.matches', o.cache, ev1 ++ o.events⟩

/-- One step of stable insertion into a start-descending list; processing
the original list with foldr reproduces Python's stable
`sorted(key=lambda x: x["start"], reverse=True)`. -/
def insertDesc (m : MatchRec) : List MatchRec → List MatchRec
  | [] => [m]
  | x :: xs => if m.start < x.start then x :: insertDesc m xs else m :: x :: xs

/-- `sorted(matches, key=lambda x: x["start"], reverse=True)`: stable sort
by start, descending. -/
def sortByStartDesc (ms : List MatchRec) : List MatchRec :=
  ms.foldr insertDesc []

/-- One iteration of the highlighting loop:
`highlighted_text[:start] + f"_{word}_" + highlighted_text[end:]`. -/
def highlightStep (ht : List Char) (m : MatchRec) : List Char :=
  ht.take m.start ++ '_' :: (m.word ++ '_' :: ht.drop m.stop)

/-- `stats[base_word] = stats.get(base_word, 0) + 1` on an association
list, preserving Python dict insertion order. -/
def bump (st : List (List Char × Nat)) (k : List Char) : List (List Char × Nat) :=
  match st with
  | [] => [(k, 1)]
  | (k', n) :: rest => if k' = k then (k', n + 1) :: rest else (k', n) :: bump rest k

/-- The statistics loop of analyze_text over the text-order match list. -/
def statsOf (ms : List MatchRec) : List (List Char × Nat) :=
  ms.foldl (fun st m => bump st m.normal) []

/-- The dict returned by analyze_text. -/
structure AnalysisResult where
  highlighted : List Char
  matches' : List MatchRec
  stats : List (List Char × Nat)
  total : Nat
  unique : Nat
deriving DecidableEq, Repr

/-- Full outcome of one analyze_text call: the returned dict, the cache
afterwards, and the emitted events. -/
structure AnalyzeOut where
  result : AnalysisResult
  cache : Cache
  events : List Event
deriving DecidableEq, Repr

/-- TextAnalyzer.analyze_text (src/analyzer.py lines 43-104): blank-input
short-circuit (`if not text.strip()`, i.e. every character is whitespace),
token loop, start-descending stable sort, back-to-front highlighting fold,
statistics, result dict. -/
def analyze_text (low : List Char → List Char)
    (morph : List Char → Except PyErr (List (List Char)))
    (words_lemma : Cache) (target_words : List (List Char))
    (tok : List Char → List Token) (cache : Cache) (text : List Char) :
    Except PyErr AnalyzeOut :=
  if text.all Char.isWhitespace then
    .ok ⟨⟨[], [], [], 0, 0⟩, cache, []⟩
  else
    match analyzeTokens low morph words_lemma target_words (tok text) cache with
    | .error e => .error e
    | .ok o =>
      let matches_sorted := sortByStartDesc o.matches'
      let highlighted_text := matches_sorted.foldl highlightStep text
      let stats := statsOf o.matches'
      .ok ⟨⟨highlighted_text, o.matches', stats, o.matches'.length, stats.length⟩,
           o.cache, o.events⟩

/-! Specification-side definitions used to state the claims. -/

/-- Python slice `text[start:stop]` for non-negative indices. -/
def slice (text : List Char) (start stop : Nat) : List Char :=
  (text.take stop).drop start

/-- The cache-free resolution of a word: override dict first, else the
engine's top parse, mirroring the non-cached path of normalize_word
(including the IndexError of the empty-parse case). -/
def resolve (low : List Char → List Char)
    (morph : List Char → Except PyErr (List (List Char)))
    (words_lemma : Cache) (word : List Char) : Except PyErr (List Char) :=
  let word_lower := low word
  match words_lemma.lookup word_lower with
  | some l => .ok (low l)
  | none =>
    match morph word_lower with
    | .error _ => .error .engineFailed
    | .ok [] => .error .indexError
    | .ok (nf :: _) => .ok (low nf)

/-- Cache coherence: every cached entry is keyed by a low-stable string and
stores exactly the cache-free resolution of its key. The empty cache is
coherent, and every run preserves coherence. -/
def coherent (low : List Char → List Char)
    (morph : List Char → Except PyErr (List (List Char)))
    (words_lemma : Cache) (cache : Cache) : Bool :=
  cache.all (fun kv =>
    low kv.1 == kv.1 &&
    decide (resolve low morph words_lemma kv.1 = Except.ok kv.2))

/-- Well-formedness of one token against the analyzed text: non-empty
in-range span whose surface text is the corresponding slice. -/
def tokenOK (text : List Char) (t : Token) : Bool :=
  decide (t.start < t.stop) && decide (t.stop ≤ text.length) &&
    (t.text == slice text t.start t.stop)

/-- Adjacent tokens are ordered and disjoint: each token ends no later than
the next begins. -/
def chainOK : List Token → Bool
  | [] => true
  | [_] => true
  | a :: b :: rest => decide (a.stop ≤ b.start) && chainOK (b :: rest)

/-- The tokenizer guarantees assumed of razdel: every token well-formed and
the token list ordered and disjoint. -/
def tokensOK (text : List Char) (ts : List Token) : Bool :=
  ts.all (tokenOK text) && chainOK ts

/-- Adjacent matches are disjoint and ordered (each ends no later than the
next starts). -/
def matchChainOK : List MatchRec → Bool
  | [] => true
  | [_] => true
  | a :: b :: rest => decide (a.stop ≤ b.start) && matchChainOK (b :: rest)

/-- Match start offsets are non-decreasing (text order). -/
def startsMonoOK : List MatchRec → Bool
  | [] => true
  | [_] => true
  | a :: b :: rest => decide (a.start ≤ b.start) && startsMonoOK (b :: rest)

/-- The token of a match: its surface word with its original offsets. -/
def matchToken (m : MatchRec) : Token := ⟨m.word, m.start, m.stop⟩

/-- Front-to-back reconstruction of the highlighted text from position
`pos`: untouched original text between matches, each match span replaced by
the wrapped surface word. -/
def spliceFrom (text : List Char) (pos : Nat) : List MatchRec → List Char
  | [] => text.drop pos
  | m :: rest =>
    ((text.take m.start).drop pos) ++
      '_' :: (m.word ++ '_' :: spliceFrom text m.stop rest)

/-- The same reconstruction with the inserted emphasis-marker pair removed
from every match: what is left of the highlighted text after deleting the
inserted markers. -/
def spliceFromPlain (text : List Char) (pos : Nat) : List MatchRec → List Char
  | [] => text.drop pos
  | m :: rest =>
    ((text.take m.start).drop pos) ++ m.word ++ spliceFromPlain text m.stop rest

/-- Sum of the counters of a stats dict. -/
def sumValues (st : List (List Char × Nat)) : Nat :=
  (st.map Prod.snd).sum

/-- Cache-free reference semantics of the token loop: the match list is a
function of the tokens and `resolve` alone. -/
def resolveMatches (low : List Char → List Char)
    (morph : List Char → Except PyErr (List (List Char)))
    (words_lemma : Cache) (target_words : List (List Char)) :
    List Token → Except PyErr (List MatchRec)
  | [] => .ok []
  | t :: ts =>
    match resolve low morph words_lemma t.text with
    | .error e => .error e
    | .ok v =>
      if (target_words.map low).contains v then
        match resolveMatches low morph words_lemma target_words ts with
        | .error e => .error e
        | .ok ms => .ok (⟨t.text, v, t.start, t.stop⟩ :: ms)
      else
        resolveMatches low morph words_lemma target_words ts

/-- No token of the list resolves to a target lemma (and none fails to
resolve): the "text contains no occurrence of any target word" premise. -/
def noTargetTokens (low : List Char → List Char)
    (morph : List Char → Except PyErr (List (List Char)))
    (words_lemma : Cache) (target_words : List (List Char))
    (ts : List Token) : Bool :=
  ts.all (fun t =>
    match resolve low morph words_lemma t.text with
    | .ok v => !((target_words.map low).contains v)
    | .error _ => false)

/-- Lowercasing is idempotent on every token of the list (true of Python's
str.lower on all inputs; stated only where needed). -/
def lowsIdemOn (low : List Char → List Char) (ts : List Token) : Bool :=
  ts.all (fun t => low (low t.text) == low t.text)

/-! Helper lemmas about normalize_word. -/

/-- Unfolding lemma for normalize_word: the let-bound `word_lower` inlined. -/
theorem normalize_word_eq (low : List Char → List Char)
    (morph : List Char → Except PyErr (List (List Char)))
    (words_lemma cache : Cache) (word : List Char) :
    normalize_word low morph words_lemma cache word =
      (match cache.lookup (low word) with
       | some v => .ok ⟨v, cache, []⟩
       | none =>
         match words_lemma.lookup (low word) with
         | some l =>
           .ok ⟨low l, (low word, low l) :: cache, [.printDict (low word) l]⟩
         | none =>
           match morph (low word) with
           | .error _ => .error .engineFailed
           | .ok [] => .error .indexError
           | .ok (nf :: _) =>
             .ok ⟨low nf, (low word, low nf) :: cache,
                  [.engineCall (low word), .printEngine (low word) nf]⟩) := rfl

/-- Looking up a key at the head of the association list succeeds. -/
theorem lookup_cons_self {c : Cache} {k v : List Char} :
    List.lookup k ((k, v) :: c) = some v := by
  rw [List.lookup_cons]
  simp

/-- A successful association-list lookup locates a member pair. -/
theorem lookup_mem : ∀ {l : Cache} {a b : List Char},
    List.lookup a l = some b → (a, b) ∈ l := by
  intro l
  induction l with
  | nil => intro a b h; simp [List.lookup] at h
  | cons kv rest ih =>
    intro a b h
    obtain ⟨k, v⟩ := kv
    rw [List.lookup_cons] at h
    cases hbeq : (a == k) with
    | true =>
      rw [hbeq] at h
      simp only [Option.some.injEq] at h
      subst h
      have hk : a = k := eq_of_beq hbeq
      subst hk
      exact List.mem_cons_self _ _
    | false =>
      rw [hbeq] at h
      simp only [] at h
      exact List.mem_cons_of_mem _ (ih h)

/-- A repeated normalize_word call for the same word returns the same value,
leaves the cache unchanged, and performs no engine call and no print. -/
theorem normalize_word_second {low : List Char → List Char}
    {morph : List Char → Except PyErr (List (List Char))}
    {words_lemma cache : Cache} {w : List Char} {r : NormResult}
    (h : normalize_word low morph words_lemma cache w = .ok r) :
    normalize_word low morph words_lemma r.cache w = .ok ⟨r.value, r.cache, []⟩ := by
  rw [normalize_word_eq] at h ⊢
  cases hc1 : List.lookup (low w) cache with
  | some v =>
    rw [hc1] at h
    injection h with h'
    subst h'
    rw [hc1]
  | none =>
    rw [hc1] at h
    cases hwl : List.lookup (low w) words_lemma with
    | some l =>
      rw [hwl] at h
      injection h with h'
      subst h'
      rw [lookup_cons_self]
    | none =>
      rw [hwl] at h
      cases hm : morph (low w) with
      | error e => rw [hm] at h; exact absurd h (by simp)
      | ok ps =>
        cases ps with
        | nil => rw [hm] at h; exact absurd h (by simp)
        | cons nf rest =>
          rw [hm] at h
          injection h with h'
          subst h'
          rw [lookup_cons_self]

/-- normalize_word only ever extends the cache (new entries go in front). -/
theorem normalize_word_suffix {low : List Char → List Char}
    {morph : List Char → Except PyErr (List (List Char))}
    {words_lemma cache : Cache} {w : List Char} {r : NormResult}
    (h : normalize_word low morph words_lemma cache w = .ok r) :
    cache <:+ r.cache := by
  rw [normalize_word_eq] at h
  cases hc1 : List.lookup (low w) cache with
  | some v =>
    rw [hc1] at h
    injection h with h'
    subst h'
    exact List.suffix_refl _
  | none =>
    rw [hc1] at h
    cases hwl : List.lookup (low w) words_lemma with
    | some l =>
      rw [hwl] at h
      injection h with h'
      subst h'
      exact List.suffix_cons _ _
    | none =>
      rw [hwl] at h
      cases hm : morph (low w) with
      | error e => rw [hm] at h; exact absurd h (by simp)
      | ok ps =>
        cases ps with
        | nil => rw [hm] at h; exact absurd h (by simp)
        | cons nf rest =>
          rw [hm] at h
          injection h with h'
          subst h'
          exact List.suffix_cons _ _

/-- Unfolding lemma for resolve with the let-bound `word_lower` inlined. -/
theorem resolve_eq (low : List Char → List Char)
    (morph : List Char → Except PyErr (List (List Char)))
    (words_lemma : Cache) (word : List Char) :
    resolve low morph words_lemma word =
      (match words_lemma.lookup (low word) with
       | some l => .ok (low l)
       | none =>
         match morph (low word) with
         | .error _ => .error .engineFailed
         | .ok [] => .error .indexError
         | .ok (nf :: _) => .ok (low nf)) := rfl

/-- The cache-free resolution does not depend on lowercasing an already
lowercased key again. -/
theorem resolve_low {low : List Char → List Char}
    {morph : List Char → Except PyErr (List (List Char))}
    {words_lemma : Cache} {w : List Char} (hw : low (low w) = low w) :
    resolve low morph words_lemma (low w) = resolve low morph words_lemma w := by
  unfold resolve
  rw [hw]

/-- On a coherent cache the value returned by normalize_word is exactly the
cache-free resolution of the word — cache hits included. -/
theorem normalize_word_value {low : List Char → List Char}
    {morph : List Char → Except PyErr (List (List Char))}
    {words_lemma cache : Cache} {w : List Char}
    (hc : coherent low morph words_lemma cache = true) :
    Except.map (fun r => r.value) (normalize_word low morph words_lemma cache w) =
      resolve low morph words_lemma w := by
  rw [normalize_word_eq]
  cases hc1 : List.lookup (low w) cache with
  | some v =>
    have hmem := lookup_mem hc1
    have hall := (List.all_eq_true.mp hc) _ hmem
    rw [Bool.and_eq_true] at hall
    have hkey : low (low w) = low w := eq_of_beq hall.1
    have hres : resolve low morph words_lemma (low w) = .ok v :=
      of_decide_eq_true hall.2
    rw [resolve_low hkey] at hres
    rw [hres]
    rfl
  | none =>
    rw [resolve_eq]
    cases hwl : List.lookup (low w) words_lemma with
    | some l => rfl
    | none =>
      cases hm : morph (low w) with
      | error e => rfl
      | ok ps => cases ps with
        | nil => rfl
        | cons nf rest => rfl

/-- normalize_word preserves cache coherence (the invariant that every
cache entry stores the cache-free resolution of its lowercased key). -/
theorem normalize_word_coherent {low : List Char → List Char}
    {morph : List Char → Except PyErr (List (List Char))}
    {words_lemma cache : Cache} {w : List Char} {r : NormResult}
    (hw : low (low w) = low w)
    (hc : coherent low morph words_lemma cache = true)
    (h : normalize_word low morph words_lemma cache w = .ok r) :
    coherent low morph words_lemma r.cache = true := by
  rw [normalize_word_eq] at h
  cases hc1 : List.lookup (low w) cache with
  | some v =>
    rw [hc1] at h
    injection h with h'
    subst h'
    exact hc
  | none =>
    rw [hc1] at h
    cases hwl : List.lookup (low w) words_lemma with
    | some l =>
      rw [hwl] at h
      injection h with h'
      subst h'
      rw [coherent, List.all_cons, Bool.and_eq_true]
      refine ⟨?_, hc⟩
      rw [Bool.and_eq_true]
      constructor
      · exact beq_iff_eq.mpr hw
      · refine decide_eq_true ?_
        rw [resolve_eq, hw, hwl]
    | none =>
      rw [hwl] at h
      cases hm : morph (low w) with
      | error e => rw [hm] at h; exact absurd h (by simp)
      | ok ps =>
        cases ps with
        | nil => rw [hm] at h; exact absurd h (by simp)
        | cons nf rest =>
          rw [hm] at h
          injection h with h'
          subst h'
          rw [coherent, List.all_cons, Bool.and_eq_true]
          refine ⟨?_, hc⟩
          rw [Bool.and_eq_true]
          constructor
          · exact beq_iff_eq.mpr hw
          · refine decide_eq_true ?_
            rw [resolve_eq, hw, hwl, hm]

/-! Helper lemmas about the token loop. -/

/-- Unfolding lemma for the cons case of the token loop, with
is_target_word inlined into a first normalize_word call. -/
theorem analyzeTokens_cons_eq (low : List Char → List Char)
    (morph : List Char → Except PyErr (List (List Char)))
    (words_lemma : Cache) (target_words : List (List Char))
    (t : Token) (ts : List Token) (cache : Cache) :
    analyzeTokens low morph words_lemma target_words (t :: ts) cache =
      (match normalize_word low morph words_lemma cache t.text with
       | .error e => .error e
       | .ok r1 =>
         if (target_words.map low).contains r1.value then
           match normalize_word low morph words_lemma r1.cache t.text with
           | .error e => .error e
           | .ok r2 =>
             match analyzeTokens low morph words_lemma target_words ts r2.cache with
             | .error e => .error e
             | .ok o =>
               .ok ⟨⟨t.text, r2.value, t.start, t.stop⟩ :: o.matches', o.cache,
                    r1.events ++ r2.events ++ o.events⟩
         else
           match analyzeTokens low morph words_lemma target_words ts r1.cache with
           | .error e => .error e
           | .ok o => .ok ⟨o.matches', o.cache, r1.events ++ o.events⟩) := by
  cases hn : normalize_word low morph words_lemma cache t.text with
  | error e => simp [analyzeTokens, is_target_word, hn]
  | ok r1 => simp [analyzeTokens, is_target_word, hn]

/-- Every match produced by the token loop copies the surface text and the
offsets of a token (the matches form a sublist of the token list), and its
lemma passed the target-set membership test. -/
theorem analyzeTokens_sublist_targets {low : List Char → List Char}
    {morph : List Char → Except PyErr (List (List Char))}
    {words_lemma : Cache} {target_words : List (List Char)} :
    ∀ (ts : List Token) (cache : Cache) (o : LoopOut),
      analyzeTokens low morph words_lemma target_words ts cache = .ok o →
      (o.matches'.map matchToken).Sublist ts ∧
        ∀ m ∈ o.matches', (target_words.map low).contains m.normal = true := by
  intro ts
  induction ts with
  | nil =>
    intro cache o h
    simp only [analyzeTokens, Except.ok.injEq] at h
    subst h
    exact ⟨List.nil_sublist _, by intro m hm; simp at hm⟩
  | cons t ts ih =>
    intro cache o h
    rw [analyzeTokens_cons_eq] at h
    cases hn : normalize_word low morph words_lemma cache t.text with
    | error e => rw [hn] at h; exact absurd h (by simp)
    | ok r1 =>
      rw [hn] at h
      simp only [] at h
      by_cases hb : (target_words.map low).contains r1.value = true
      · rw [if_pos hb] at h
        cases hn2 : normalize_word low morph words_lemma r1.cache t.text with
        | error e => rw [hn2] at h; exact absurd h (by simp)
        | ok r2 =>
          rw [hn2] at h
          simp only [] at h
          cases ha : analyzeTokens low morph words_lemma target_words ts r2.cache with
          | error e => rw [ha] at h; exact absurd h (by simp)
          | ok o2 =>
            rw [ha] at h
            simp only [] at h
            injection h with h'
            subst h'
            obtain ⟨hsub, htg⟩ := ih r2.cache o2 ha
            have hval : r2.value = r1.value := by
              have h2 := normalize_word_second hn
              rw [hn2] at h2
              injection h2 with h2'
              rw [h2']
            constructor
            · exact List.Sublist.cons₂ t hsub
            · intro m hm
              rcases List.mem_cons.mp hm with hm1 | hm2
              · subst hm1
                show (target_words.map low).contains r2.value = true
                rw [hval]
                exact hb
              · exact htg m hm2
      · rw [if_neg hb] at h
        cases ha : analyzeTokens low morph words_lemma target_words ts r1.cache with
        | error e => rw [ha] at h; exact absurd h (by simp)
        | ok o2 =>
          rw [ha] at h
          simp only [] at h
          injection h with h'
          subst h'
          obtain ⟨hsub, htg⟩ := ih r1.cache o2 ha
          exact ⟨List.Sublist.cons t hsub, htg⟩

/-- The token loop only ever extends the cache. -/
theorem analyzeTokens_suffix {low : List Char → List Char}
    {morph : List Char → Except PyErr (List (List Char))}
    {words_lemma : Cache} {target_words : List (List Char)} :
    ∀ (ts : List Token) (cache : Cache) (o : LoopOut),
      analyzeTokens low morph words_lemma target_words ts cache = .ok o →
      cache <:+ o.cache := by
  intro ts
  induction ts with
  | nil =>
    intro cache o h
    simp only [analyzeTokens, Except.ok.injEq] at h
    subst h
    exact List.suffix_refl _
  | cons t ts ih =>
    intro cache o h
    rw [analyzeTokens_cons_eq] at h
    cases hn : normalize_word low morph words_lemma cache t.text with
    | error e => rw [hn] at h; exact absurd h (by simp)
    | ok r1 =>
      rw [hn] at h
      simp only [] at h
      have hs1 : cache <:+ r1.cache := normalize_word_suffix hn
      by_cases hb : (target_words.map low).contains r1.value = true
      · rw [if_pos hb] at h
        cases hn2 : normalize_word low morph words_lemma r1.cache t.text with
        | error e => rw [hn2] at h; exact absurd h (by simp)
        | ok r2 =>
          rw [hn2] at h
          simp only [] at h
          cases ha : analyzeTokens low morph words_lemma target_words ts r2.cache with
          | error e => rw [ha] at h; exact absurd h (by simp)
          | ok o2 =>
            rw [ha] at h
            simp only [] at h
            injection h with h'
            subst h'
            have hs2 : r1.cache <:+ r2.cache := normalize_word_suffix hn2
            exact (hs1.trans hs2).trans (ih r2.cache o2 ha)
      · rw [if_neg hb] at h
        cases ha : analyzeTokens low morph words_lemma target_words ts r1.cache with
        | error e => rw [ha] at h; exact absurd h (by simp)
        | ok o2 =>
          rw [ha] at h
          simp only [] at h
          injection h with h'
          subst h'
          exact hs1.trans (ih r1.cache o2 ha)

/-- On a coherent cache the match list computed by the token loop is the
cache-free reference list: the cache is invisible in the result. -/
theorem analyzeTokens_resolve {low : List Char → List Char}
    {morph : List Char → Except PyErr (List (List Char))}
    {words_lemma : Cache} {target_words : List (List Char)} :
    ∀ (ts : List Token) (cache : Cache),
      coherent low morph words_lemma cache = true →
      (∀ t ∈ ts, low (low t.text) = low t.text) →
      Except.map (fun o => o.matches')
          (analyzeTokens low morph words_lemma target_words ts cache) =
        resolveMatches low morph words_lemma target_words ts := by
  intro ts
  induction ts with
  | nil => intro cache hc hlow; rfl
  | cons t ts ih =>
    intro cache hc hlow
    have hwt : low (low t.text) = low t.text := hlow t (List.mem_cons_self _ _)
    have hlow' : ∀ t' ∈ ts, low (low t'.text) = low t'.text :=
      fun t' ht' => hlow t' (List.mem_cons_of_mem _ ht')
    have hval := @normalize_word_value low morph words_lemma cache t.text hc
    rw [analyzeTokens_cons_eq]
    show _ = resolveMatches low morph words_lemma target_words (t :: ts)
    rw [resolveMatches]
    cases hn : normalize_word low morph words_lemma cache t.text with
    | error e =>
      rw [hn] at hval
      simp only [Except.map] at hval
      rw [← hval]
      rfl
    | ok r1 =>
      rw [hn] at hval
      simp only [Except.map] at hval
      rw [← hval]
      simp only []
      have hcoh1 : coherent low morph words_lemma r1.cache = true :=
        normalize_word_coherent hwt hc hn
      have ihe := ih r1.cache hcoh1 hlow'
      by_cases hb : (target_words.map low).contains r1.value = true
      · rw [if_pos hb, if_pos hb]
        have h2 := normalize_word_second hn
        rw [h2]
        simp only []
        cases ha : analyzeTokens low morph words_lemma target_words ts r1.cache with
        | error e =>
          rw [ha] at ihe
          simp only [Except.map] at ihe
          rw [← ihe]
          rfl
        | ok o2 =>
          rw [ha] at ihe
          simp only [Except.map] at ihe
          rw [← ihe]
          rfl
      · rw [if_neg hb, if_neg hb]
        cases ha : analyzeTokens low morph words_lemma target_words ts r1.cache with
        | error e =>
          rw [ha] at ihe
          simp only [Except.map] at ihe
          rw [← ihe]
          rfl
        | ok o2 =>
          rw [ha] at ihe
          simp only [Except.map] at ihe
          rw [← ihe]
          rfl

/-! Helper lemmas about statistics. -/

/-- Unfolding rule for sumValues over a cons. -/
theorem sumValues_cons {k : List Char} {n : Nat} {st : List (List Char × Nat)} :
    sumValues ((k, n) :: st) = n + sumValues st := by
  simp [sumValues]

/-- One bump adds exactly one to the total count. -/
theorem sumValues_bump : ∀ (st : List (List Char × Nat)) (k : List Char),
    sumValues (bump st k) = sumValues st + 1 := by
  intro st k
  induction st with
  | nil => rfl
  | cons kv rest ih =>
    obtain ⟨k', n⟩ := kv
    by_cases hk : k' = k
    · rw [bump, if_pos hk, sumValues_cons, sumValues_cons]
      omega
    · rw [bump, if_neg hk, sumValues_cons, sumValues_cons, ih]
      omega

/-- One bump grows the dict by at most one entry. -/
theorem length_bump : ∀ (st : List (List Char × Nat)) (k : List Char),
    (bump st k).length ≤ st.length + 1 := by
  intro st k
  induction st with
  | nil => simp [bump]
  | cons kv rest ih =>
    obtain ⟨k', n⟩ := kv
    by_cases hk : k' = k
    · rw [bump, if_pos hk]; simp
    · rw [bump, if_neg hk]
      simp only [List.length_cons]
      omega

/-- The statistics fold counts every processed match exactly once. -/
theorem sumValues_foldl_bump : ∀ (ms : List MatchRec) (st : List (List Char × Nat)),
    sumValues (ms.foldl (fun st m => bump st m.normal) st) = sumValues st + ms.length := by
  intro ms
  induction ms with
  | nil => intro st; simp
  | cons m ms ih =>
    intro st
    rw [List.foldl_cons, ih, sumValues_bump]
    simp only [List.length_cons]
    omega

/-- The statistics fold creates at most one entry per processed match. -/
theorem length_foldl_bump : ∀ (ms : List MatchRec) (st : List (List Char × Nat)),
    (ms.foldl (fun st m => bump st m.normal) st).length ≤ st.length + ms.length := by
  intro ms
  induction ms with
  | nil => intro st; simp
  | cons m ms ih =>
    intro st
    rw [List.foldl_cons]
    have h1 := ih (bump st m.normal)
    have h2 := length_bump st m.normal
    simp only [List.length_cons]
    omega

/-! Helper lemmas about token chains and match order. -/

/-- A chain of ordered disjoint non-empty tokens is pairwise ordered. -/
theorem chainOK_pairwise : ∀ (ts : List Token),
    (∀ t ∈ ts, t.start < t.stop) → chainOK ts = true →
    List.Pairwise (fun a b => a.stop ≤ b.start) ts
  | [] => fun _ _ => List.Pairwise.nil
  | [a] => fun _ _ => List.Pairwise.cons (by intro b hb; simp at hb) List.Pairwise.nil
  | a :: b :: rest => fun hlt hch => by
    rw [chainOK, Bool.and_eq_true] at hch
    have hab : a.stop ≤ b.start := of_decide_eq_true hch.1
    have ihp := chainOK_pairwise (b :: rest)
      (fun t ht => hlt t (List.mem_cons_of_mem _ ht)) hch.2
    refine List.Pairwise.cons ?_ ihp
    intro c hc
    rcases List.mem_cons.mp hc with h1 | h2
    · subst h1; exact hab
    · have hbc : b.stop ≤ c.start := List.rel_of_pairwise_cons ihp h2
      have hbb : b.start < b.stop :=
        hlt b (List.mem_cons_of_mem _ (List.mem_cons_self _ _))
      omega

/-- Pairwise-ordered matches pass the adjacent-disjointness check. -/
theorem pairwise_matchChainOK : ∀ (ms : List MatchRec),
    List.Pairwise (fun a b => a.stop ≤ b.start) ms → matchChainOK ms = true
  | [] => fun _ => rfl
  | [_] => fun _ => rfl
  | a :: b :: rest => fun hp => by
    rw [matchChainOK, Bool.and_eq_true]
    refine ⟨decide_eq_true (List.rel_of_pairwise_cons hp (List.mem_cons_self _ _)), ?_⟩
    exact pairwise_matchChainOK (b :: rest) (List.pairwise_cons.mp hp).2

/-- Pairwise start-monotone matches pass the adjacent-monotonicity check. -/
theorem pairwise_startsMonoOK : ∀ (ms : List MatchRec),
    List.Pairwise (fun a b => a.start ≤ b.start) ms → startsMonoOK ms = true
  | [] => fun _ => rfl
  | [_] => fun _ => rfl
  | a :: b :: rest => fun hp => by
    rw [startsMonoOK, Bool.and_eq_true]
    refine ⟨decide_eq_true (List.rel_of_pairwise_cons hp (List.mem_cons_self _ _)), ?_⟩
    exact pairwise_startsMonoOK (b :: rest) (List.pairwise_cons.mp hp).2

/-- Unpacking the tokenizer well-formedness checker. -/
theorem tokensOK_spec {text : List Char} {ts : List Token}
    (h : tokensOK text ts = true) :
    (∀ t ∈ ts, t.start < t.stop ∧ t.stop ≤ text.length ∧
        t.text = slice text t.start t.stop) ∧ chainOK ts = true := by
  rw [tokensOK, Bool.and_eq_true] at h
  refine ⟨?_, h.2⟩
  intro t ht
  have ht' := (List.all_eq_true.mp h.1) t ht
  rw [tokenOK, Bool.and_eq_true, Bool.and_eq_true] at ht'
  exact ⟨of_decide_eq_true ht'.1.1, of_decide_eq_true ht'.1.2, eq_of_beq ht'.2⟩

/-! Helper lemmas about the descending sort. -/

/-- Inserting an element smaller than everything in the list appends it. -/
theorem insertDesc_append : ∀ (l : List MatchRec) (m : MatchRec),
    (∀ x ∈ l, m.start < x.start) → insertDesc m l = l ++ [m] := by
  intro l
  induction l with
  | nil => intro m _; rfl
  | cons x xs ih =>
    intro m h
    have hx : m.start < x.start := h x (List.mem_cons_self _ _)
    rw [insertDesc, if_pos hx, ih m (fun y hy => h y (List.mem_cons_of_mem _ hy))]
    rfl

/-- On a list with strictly increasing starts the stable descending sort is
exactly list reversal. -/
theorem sortByStartDesc_reverse : ∀ (ms : List MatchRec),
    List.Pairwise (fun a b => a.start < b.start) ms →
    sortByStartDesc ms = ms.reverse := by
  intro ms
  induction ms with
  | nil => intro _; rfl
  | cons m ms ih =>
    intro hp
    have hp' := List.pairwise_cons.mp hp
    rw [show sortByStartDesc (m :: ms) = insertDesc m (sortByStartDesc ms) from rfl]
    rw [ih hp'.2]
    rw [insertDesc_append _ _ (fun x hx => hp'.1 x (List.mem_reverse.mp hx))]
    rw [List.reverse_cons]

/-! Helper lemmas about the highlighting fold. -/

/-- Splitting a take at an earlier position. -/
theorem take_prefix_take {text : List Char} {p q : Nat} (hpq : p ≤ q) :
    text.take p ++ (text.take q).drop p = text.take q := by
  conv_rhs => rw [← List.take_append_drop p (text.take q)]
  rw [List.take_take, min_eq_left hpq]

/-- Splitting a drop at a later in-range position. -/
theorem drop_middle {text : List Char} {a b : Nat} (hab : a ≤ b)
    (hb : b ≤ text.length) :
    text.drop a = (text.take b).drop a ++ text.drop b := by
  conv_lhs => rw [← List.take_append_drop b text]
  rw [List.drop_append_eq_append_drop, List.length_take, min_eq_left hb,
    Nat.sub_eq_zero_of_le hab, List.drop_zero]

/-- The back-to-front highlighting fold, read as a foldr over the
text-ordered match list, produces exactly the front-to-back splice. -/
theorem foldr_highlight (text : List Char) :
    ∀ (ms : List MatchRec) (p : Nat),
      (∀ m ∈ ms, m.start ≤ m.stop ∧ m.stop ≤ text.length) →
      List.Pairwise (fun a b => a.stop ≤ b.start) ms →
      (∀ m ∈ ms, p ≤ m.start) →
      ms.foldr (fun m acc => highlightStep acc m) text =
        text.take p ++ spliceFrom text p ms := by
  intro ms
  induction ms with
  | nil =>
    intro p _ _ _
    rw [spliceFrom]
    exact (List.take_append_drop p text).symm
  | cons m rest ih =>
    intro p hval hp hpb
    obtain ⟨hms, hmstop⟩ := hval m (List.mem_cons_self _ _)
    have hrest_val : ∀ m' ∈ rest, m'.start ≤ m'.stop ∧ m'.stop ≤ text.length :=
      fun m' h => hval m' (List.mem_cons_of_mem _ h)
    have hrest_pair := (List.pairwise_cons.mp hp).2
    have hrest_bound : ∀ m' ∈ rest, m.stop ≤ m'.start :=
      fun m' h => List.rel_of_pairwise_cons hp h
    have hpm : p ≤ m.start := hpb m (List.mem_cons_self _ _)
    rw [List.foldr_cons, ih m.stop hrest_val hrest_pair hrest_bound,
      spliceFrom, highlightStep]
    have hlenA : (text.take m.stop).length = m.stop := by
      rw [List.length_take]; exact min_eq_left hmstop
    have htake : (text.take m.stop ++ spliceFrom text m.stop rest).take m.start =
        text.take m.start := by
      rw [List.take_append_eq_append_take, hlenA, Nat.sub_eq_zero_of_le hms,
        List.take_zero, List.append_nil, List.take_take, min_eq_left hms]
    have hdrop : (text.take m.stop ++ spliceFrom text m.stop rest).drop m.stop =
        spliceFrom text m.stop rest := by
      rw [List.drop_append_eq_append_drop,
        List.drop_eq_nil_of_le (le_of_eq hlenA), hlenA, Nat.sub_self,
        List.drop_zero, List.nil_append]
    rw [htake, hdrop, ← List.append_assoc, take_prefix_take hpm]

/-- Deleting the inserted marker pairs from the splice gives back the
original text, provided every match's word is its own slice. -/
theorem spliceFromPlain_drop (text : List Char) :
    ∀ (ms : List MatchRec) (p : Nat),
      (∀ m ∈ ms, m.start ≤ m.stop ∧ m.stop ≤ text.length ∧
        m.word = slice text m.start m.stop) →
      List.Pairwise (fun a b => a.stop ≤ b.start) ms →
      (∀ m ∈ ms, p ≤ m.start) →
      spliceFromPlain text p ms = text.drop p := by
  intro ms
  induction ms with
  | nil => intro p _ _ _; rw [spliceFromPlain]
  | cons m rest ih =>
    intro p hval hp hpb
    obtain ⟨hms, hmstop, hword⟩ := hval m (List.mem_cons_self _ _)
    have hrest_val := fun m' h => hval m' (List.mem_cons_of_mem m h)
    have hrest_pair := (List.pairwise_cons.mp hp).2
    have hrest_bound : ∀ m' ∈ rest, m.stop ≤ m'.start :=
      fun m' h => List.rel_of_pairwise_cons hp h
    have hpm : p ≤ m.start := hpb m (List.mem_cons_self _ _)
    have hstartlen : m.start ≤ text.length := le_trans hms hmstop
    rw [spliceFromPlain, ih m.stop hrest_val hrest_pair hrest_bound, hword, slice]
    rw [drop_middle hpm hstartlen, drop_middle hms hmstop, List.append_assoc]

/-- The splice is exactly two characters longer than its marker-free
version per match. -/
theorem spliceFrom_length (text : List Char) :
    ∀ (ms : List MatchRec) (p : Nat),
      (spliceFrom text p ms).length =
        (spliceFromPlain text p ms).length + 2 * ms.length := by
  intro ms
  induction ms with
  | nil => intro p; rw [spliceFrom, spliceFromPlain]; simp
  | cons m rest ih =>
    intro p
    rw [spliceFrom, spliceFromPlain]
    simp only [List.length_append, List.length_cons, ih, List.length_nil]
    omega

/-! Helper lemmas about analyze_text as a whole. -/

/-- The result dict analyze_text builds from the text-order match list. -/
def mkRes (text : List Char) (ms : List MatchRec) : AnalysisResult :=
  ⟨(sortByStartDesc ms).foldl highlightStep text, ms, statsOf ms, ms.length,
   (statsOf ms).length⟩

/-- Blank input short-circuits analyze_text to the zero result, leaving the
cache untouched, with no event. -/
theorem analyze_text_blank {low : List Char → List Char}
    {morph : List Char → Except PyErr (List (List Char))}
    {words_lemma : Cache} {target_words : List (List Char)}
    {tok : List Char → List Token} {cache : Cache} {text : List Char}
    (h : text.all Char.isWhitespace = true) :
    analyze_text low morph words_lemma target_words tok cache text =
      .ok ⟨⟨[], [], [], 0, 0⟩, cache, []⟩ := by
  unfold analyze_text
  rw [if_pos h]

/-- Case analysis on a successful analyze_text call: either the blank
short-circuit fired, or the token loop succeeded and the result is built
from its match list. -/
theorem analyze_text_ok_cases {low : List Char → List Char}
    {morph : List Char → Except PyErr (List (List Char))}
    {words_lemma : Cache} {target_words : List (List Char)}
    {tok : List Char → List Token} {cache : Cache} {text : List Char}
    {out : AnalyzeOut}
    (h : analyze_text low morph words_lemma target_words tok cache text = .ok out) :
    (text.all Char.isWhitespace = true ∧ out = ⟨⟨[], [], [], 0, 0⟩, cache, []⟩) ∨
      (text.all Char.isWhitespace = false ∧ ∃ o : LoopOut,
        analyzeTokens low morph words_lemma target_words (tok text) cache = .ok o ∧
        out = ⟨mkRes text o.matches', o.cache, o.events⟩) := by
  unfold analyze_text at h
  by_cases hbl : text.all Char.isWhitespace = true
  · rw [if_pos hbl] at h
    injection h with h'
    exact Or.inl ⟨hbl, h'.symm⟩
  · rw [if_neg hbl] at h
    have hbl' : text.all Char.isWhitespace = false := by
      revert hbl; cases text.all Char.isWhitespace <;> simp
    refine Or.inr ⟨hbl', ?_⟩
    cases ha : analyzeTokens low morph words_lemma target_words (tok text) cache with
    | error e => rw [ha] at h; exact absurd h (by simp)
    | ok o =>
      rw [ha] at h
      simp only [] at h
      injection h with h'
      exact ⟨o, rfl, h'.symm⟩

/-- If no token resolves to a target lemma the reference loop finds no
match. -/
theorem resolveMatches_noTarget {low : List Char → List Char}
    {morph : List Char → Except PyErr (List (List Char))}
    {words_lemma : Cache} {target_words : List (List Char)} :
    ∀ ts : List Token,
      noTargetTokens low morph words_lemma target_words ts = true →
      resolveMatches low morph words_lemma target_words ts = .ok [] := by
  intro ts
  induction ts with
  | nil => intro _; rfl
  | cons t ts ih =>
    intro hno
    rw [noTargetTokens, List.all_cons, Bool.and_eq_true] at hno
    obtain ⟨ht, hts⟩ := hno
    rw [resolveMatches]
    cases hr : resolve low morph words_lemma t.text with
    | error e => rw [hr] at ht; exact absurd ht (by simp)
    | ok v =>
      rw [hr] at ht
      simp only [Bool.not_eq_true'] at ht
      simp only []
      rw [if_neg (by rw [ht]; exact Bool.false_ne_true)]
      exact ih hts

/-- On a coherent cache the result dict of analyze_text is a function of
the text and the cache-free match resolution alone. -/
theorem analyze_result_of_coherent {low : List Char → List Char}
    {morph : List Char → Except PyErr (List (List Char))}
    {words_lemma : Cache} {target_words : List (List Char)}
    {tok : List Char → List Token} {cache : Cache} {text : List Char}
    (hblank : text.all Char.isWhitespace = false)
    (hc : coherent low morph words_lemma cache = true)
    (hlows : ∀ t ∈ tok text, low (low t.text) = low t.text) :
    Except.map (fun o => o.result)
        (analyze_text low morph words_lemma target_words tok cache text) =
      Except.map (mkRes text)
        (resolveMatches low morph words_lemma target_words (tok text)) := by
  have hm := @analyzeTokens_resolve low morph words_lemma target_words (tok text) cache hc hlows
  unfold analyze_text
  rw [if_neg (by rw [hblank]; exact Bool.false_ne_true)]
  cases ha : analyzeTokens low morph words_lemma target_words (tok text) cache with
  | error e =>
    rw [ha] at hm
    simp only [Except.map] at hm
    rw [← hm]
    rfl
  | ok o =>
    rw [ha] at hm
    simp only [Except.map] at hm
    rw [← hm]
    rfl

/-- Under the tokenizer guarantees, every match of a successful token loop
has a valid non-empty span whose word is the original slice, and the match
list is pairwise ordered and disjoint. -/
theorem matches_facts {low : List Char → List Char}
    {morph : List Char → Except PyErr (List (List Char))}
    {words_lemma : Cache} {target_words : List (List Char)}
    {tok : List Char → List Token} {cache : Cache} {text : List Char}
    {o : LoopOut}
    (htok : tokensOK text (tok text) = true)
    (ha : analyzeTokens low morph words_lemma target_words (tok text) cache = .ok o) :
    (∀ m ∈ o.matches', m.start < m.stop ∧ m.stop ≤ text.length ∧
      m.word = slice text m.start m.stop) ∧
      List.Pairwise (fun a b : MatchRec => a.stop ≤ b.start) o.matches' := by
  obtain ⟨hsub, _⟩ := analyzeTokens_sublist_targets (tok text) cache o ha
  obtain ⟨htokfacts, hchain⟩ := tokensOK_spec htok
  have hmem : ∀ m ∈ o.matches', (matchToken m) ∈ tok text :=
    fun m hm => hsub.subset (List.mem_map_of_mem matchToken hm)
  constructor
  · intro m hm
    exact htokfacts (matchToken m) (hmem m hm)
  · have hpair_tok : List.Pairwise (fun a b : Token => a.stop ≤ b.start) (tok text) :=
      chainOK_pairwise (tok text) (fun t ht => (htokfacts t ht).1) hchain
    have hpm := List.Pairwise.sublist hsub hpair_tok
    rw [List.pairwise_map] at hpm
    exact hpm

/-! Concrete fixtures used by the witnesses: identity lowercasing, an echo
engine whose single parse is the word itself, the text "a b" tokenized into
its two one-letter words, and the target set \x7b"a"\x7d. -/

/-- Identity lowercasing (idempotent, like Python's str.lower). -/
def wLow : List Char → List Char := fun s => s

/-- An engine whose top-ranked normal form is the word itself. -/
def wMorph : List Char → Except PyErr (List (List Char)) := fun w => .ok [w]

/-- The text "a b". -/
def wText : List Char := ['a', ' ', 'b']

/-- A tokenizer returning the two word tokens of "a b". -/
def wTok : List Char → List Token := fun _ => [⟨['a'], 0, 1⟩, ⟨['b'], 2, 3⟩]

/-- The target set containing only the lemma "a". -/
def wTws : List (List Char) := [['a']]

/-- The full outcome of analyze_text on the fixtures with an empty cache. -/
def wOut : AnalyzeOut :=
  ⟨⟨['_', 'a', '_', ' ', 'b'], [⟨['a'], ['a'], 0, 1⟩], [(['a'], 1)], 1, 1⟩,
   [(['b'], ['b']), (['a'], ['a'])],
   [.engineCall ['a'], .printEngine ['a'] ['a'],
    .engineCall ['b'], .printEngine ['b'] ['b']]⟩

/-- The full outcome of analyze_text on the fixtures when the cache starts
with the unrelated coherent entry ("z", "z"). -/
def wOutZ : AnalyzeOut :=
  ⟨⟨['_', 'a', '_', ' ', 'b'], [⟨['a'], ['a'], 0, 1⟩], [(['a'], 1)], 1, 1⟩,
   [(['b'], ['b']), (['a'], ['a']), (['z'], ['z'])],
   [.engineCall ['a'], .printEngine ['a'] ['a'],
    .engineCall ['b'], .printEngine ['b'] ['b']]⟩

/-! The claims. -/

/-- C2: the claim says normalize_word never raises and falls back to the
lowercased word when the engine yields no candidate or fails. The code
violates both halves, against its own intent: the fallback expression
`parsed[0].normal_form.lower() if parsed else word_lower` shows the
empty-parse case was meant to return the word, but the preceding debug
print evaluates `parsed[0].normal_form` first and raises IndexError on an
empty parse list; and an engine exception propagates because normalize_word
has no try/except. This theorem evaluates the embedded code at the two
failing inputs: the word "q", not an override key, with an engine returning
no candidates (left) and with a raising engine (right). -/
theorem C2_normalize_word_empty_parse_fails :
    normalize_word (fun s => s) (fun _ => .ok []) [] [] ['q'] =
        .error .indexError ∧
      normalize_word (fun s => s) (fun _ => .error .engineFailed) [] [] ['q'] =
        .error .engineFailed := by
  constructor
  · rfl
  · rfl

/-- C4: override precedence. If the lowercased word is a key of the Lemma
Override Mapping with value l, then normalize_word returns l lowercased —
with the morphological engine universally quantified, so the engine's
answer is irrelevant, and on any coherent cache, so calls served from the
cache return the same mapped lemma. -/
theorem C4_override_precedence (low : List Char → List Char)
    (morph : List Char → Except PyErr (List (List Char)))
    (words_lemma cache : Cache) (w l : List Char)
    (hc : coherent low morph words_lemma cache = true)
    (hov : words_lemma.lookup (low w) = some l) :
    Except.map (fun r => r.value) (normalize_word low morph words_lemma cache w) =
      .ok (low l) := by
  rw [normalize_word_value hc, resolve_eq, hov]

/-- C4 witness: word "a" mapped to "b" by the override dict; the engine
(which would answer "a") is ignored, and the coherent cache entry
("z", "z") does not interfere. -/
theorem C4_override_precedence_witness :
    coherent wLow wMorph [(['a'], ['b'])] [(['z'], ['z'])] = true ∧
      List.lookup (wLow ['a']) [(['a'], ['b'])] = some ['b'] ∧
      Except.map (fun r => r.value)
          (normalize_word wLow wMorph [(['a'], ['b'])] [(['z'], ['z'])] ['a']) =
        .ok (wLow ['b']) :=
  ⟨by decide, by decide,
   C4_override_precedence wLow wMorph [(['a'], ['b'])] [(['z'], ['z'])] ['a'] ['b']
     (by decide) (by decide)⟩

/-- C5: counting consistency. For every successful analyze_text call,
total equals the number of matches, equals the sum of the stats counters;
unique equals the number of stats entries and is at most total. -/
theorem C5_stats_consistency (low : List Char → List Char)
    (morph : List Char → Except PyErr (List (List Char)))
    (words_lemma : Cache) (target_words : List (List Char))
    (tok : List Char → List Token) (cache : Cache) (text : List Char)
    (out : AnalyzeOut)
    (h : analyze_text low morph words_lemma target_words tok cache text = .ok out) :
    out.result.total = out.result.matches'.length ∧
      sumValues out.result.stats = out.result.total ∧
      out.result.unique = out.result.stats.length ∧
      out.result.unique ≤ out.result.total := by
  rcases analyze_text_ok_cases h with ⟨_, hout⟩ | ⟨_, o, ha, hout⟩
  · subst hout
    exact ⟨rfl, rfl, rfl, Nat.le_refl 0⟩
  · subst hout
    refine ⟨rfl, ?_, rfl, ?_⟩
    · show sumValues (statsOf o.matches') = o.matches'.length
      have hs := sumValues_foldl_bump o.matches' []
      rw [statsOf, hs]
      simp [sumValues]
    · show (statsOf o.matches').length ≤ o.matches'.length
      have hl := length_foldl_bump o.matches' []
      rw [statsOf]
      simpa using hl

/-- C5 witness: the fixture run "a b" with target "a" gives total 1,
matches of length 1, stats sum 1, unique 1. -/
theorem C5_stats_consistency_witness :
    analyze_text wLow wMorph [] wTws wTok [] wText = .ok wOut ∧
      (wOut.result.total = wOut.result.matches'.length ∧
        sumValues wOut.result.stats = wOut.result.total ∧
        wOut.result.unique = wOut.result.stats.length ∧
        wOut.result.unique ≤ wOut.result.total) :=
  ⟨by decide,
   C5_stats_consistency wLow wMorph [] wTws wTok [] wText wOut (by decide)⟩

/-- C8: blank input short-circuit. If the text is empty or whitespace-only
(i.e. stripping it leaves nothing), analyze_text returns the zero-value
result with the cache unchanged and an empty event trace (so no print
happened and no engine ran); the tokenizer `tok` and the engine `morph`
are universally quantified and absent from the conclusion, so neither is
invoked. -/
theorem C8_blank_zero_result (low : List Char → List Char)
    (morph : List Char → Except PyErr (List (List Char)))
    (words_lemma : Cache) (target_words : List (List Char))
    (tok : List Char → List Token) (cache : Cache) (text : List Char)
    (h : text.all Char.isWhitespace = true) :
    analyze_text low morph words_lemma target_words tok cache text =
      .ok ⟨⟨[], [], [], 0, 0⟩, cache, []⟩ := by
  unfold analyze_text
  rw [if_pos h]

/-- C8 witness: the one-space text with a tokenizer and engine that would
find a target if they ran; the zero result comes back and the preexisting
cache is untouched. -/
theorem C8_blank_zero_result_witness :
    ([' '] : List Char).all Char.isWhitespace = true ∧
      analyze_text wLow wMorph [] wTws wTok [(['z'], ['z'])] [' '] =
        .ok ⟨⟨[], [], [], 0, 0⟩, [(['z'], ['z'])], []⟩ :=
  ⟨by decide,
   C8_blank_zero_result wLow wMorph [] wTws wTok [(['z'], ['z'])] [' '] (by decide)⟩

/-- C9 counterexample: the claim says analyze_text performs no I/O, but the
debug print statements of normalize_word write to stdout on every
resolution not served from the cache: the fixture run emits a non-empty
print/engine event trace. -/
theorem C9_prints_counterexample :
    Except.map (fun o => o.events) (analyze_text wLow wMorph [] wTws wTok [] wText) =
        .ok [.engineCall ['a'], .printEngine ['a'] ['a'],
             .engineCall ['b'], .printEngine ['b'] ['b']] ∧
      ([Event.engineCall ['a'], .printEngine ['a'] ['a'],
        .engineCall ['b'], .printEngine ['b'] ['b']] : List Event) ≠ [] := by
  constructor
  · rfl
  · intro hcon
    cases hcon

/-- C9 (amended): apart from the diagnostic prints, the only side effect of
analyze_text on the analyzer's state is adding entries to the lemma cache:
the starting cache survives as a suffix of the final cache. The target set
and the override mapping are read-only inputs of the model, and the result
is built fresh from the loop output. -/
theorem C9_cache_only_grows (low : List Char → List Char)
    (morph : List Char → Except PyErr (List (List Char)))
    (words_lemma : Cache) (target_words : List (List Char))
    (tok : List Char → List Token) (cache : Cache) (text : List Char)
    (out : AnalyzeOut)
    (h : analyze_text low morph words_lemma target_words tok cache text = .ok out) :
    cache <:+ out.cache := by
  rcases analyze_text_ok_cases h with ⟨_, hout⟩ | ⟨_, o, ha, hout⟩
  · subst hout
    exact List.suffix_refl _
  · subst hout
    exact analyzeTokens_suffix (tok text) cache o ha

/-- C9 witness: starting from the cache [("z","z")], the fixture run ends
with that cache as a suffix of the grown cache. -/
theorem C9_cache_only_grows_witness :
    analyze_text wLow wMorph [] wTws wTok [(['z'], ['z'])] wText = .ok wOutZ ∧
      [(['z'], ['z'])] <:+ wOutZ.cache :=
  ⟨by decide,
   C9_cache_only_grows wLow wMorph [] wTws wTok [(['z'], ['z'])] wText wOutZ
     (by decide)⟩

/-- C1 (amended): for every input text containing at least one
non-whitespace character, under the tokenizer guarantees, the `highlighted`
field of a successful analyze_text call equals the original text with every
match span [start, stop) replaced by the surface word wrapped in a pair of
emphasis markers (the front-to-back splice); removing the inserted marker
pairs (the marker-free splice) reproduces the text exactly, and the
highlighted text is at least as long as the input. The back-to-front
start-descending replacement loop achieves this. (The unamended claim, over
every input text, fails on whitespace-only input, where the short-circuit
returns an empty highlighted string.) -/
theorem C1_highlighted_reconstructs (low : List Char → List Char)
    (morph : List Char → Except PyErr (List (List Char)))
    (words_lemma : Cache) (target_words : List (List Char))
    (tok : List Char → List Token) (cache : Cache) (text : List Char)
    (out : AnalyzeOut)
    (htok : tokensOK text (tok text) = true)
    (hblank : text.all Char.isWhitespace = false)
    (h : analyze_text low morph words_lemma target_words tok cache text = .ok out) :
    out.result.highlighted = spliceFrom text 0 out.result.matches' ∧
      spliceFromPlain text 0 out.result.matches' = text ∧
      text.length ≤ out.result.highlighted.length := by
  rcases analyze_text_ok_cases h with ⟨hbl, _⟩ | ⟨_, o, ha, hout⟩
  · rw [hbl] at hblank
    exact absurd hblank (by simp)
  · subst hout
    obtain ⟨hmf, hpair⟩ := matches_facts htok ha
    have hstartlt : List.Pairwise (fun a b : MatchRec => a.start < b.start) o.matches' :=
      List.Pairwise.imp_of_mem
        (fun {a b} hma hmb hr => lt_of_lt_of_le (hmf a hma).1 hr) hpair
    have hsort := sortByStartDesc_reverse o.matches' hstartlt
    have hfold := foldr_highlight text o.matches' 0
      (fun m hm => ⟨le_of_lt (hmf m hm).1, (hmf m hm).2.1⟩) hpair
      (fun m _ => Nat.zero_le _)
    have hplain := spliceFromPlain_drop text o.matches' 0
      (fun m hm => ⟨le_of_lt (hmf m hm).1, (hmf m hm).2.1, (hmf m hm).2.2⟩) hpair
      (fun m _ => Nat.zero_le _)
    have hhl : (sortByStartDesc o.matches').foldl highlightStep text =
        spliceFrom text 0 o.matches' := by
      rw [hsort, List.foldl_reverse, hfold, List.take_zero, List.nil_append]
    refine ⟨hhl, ?_, ?_⟩
    · show spliceFromPlain text 0 o.matches' = text
      rw [hplain, List.drop_zero]
    · show text.length ≤ ((sortByStartDesc o.matches').foldl highlightStep text).length
      rw [hhl, spliceFrom_length text o.matches' 0, hplain, List.drop_zero]
      omega

/-- C1 witness: the fixture run on "a b" with target "a": the highlighted
text is the splice, the marker-free splice is the original text, and the
length grew. -/
theorem C1_highlighted_reconstructs_witness :
    tokensOK wText (wTok wText) = true ∧
      wText.all Char.isWhitespace = false ∧
      analyze_text wLow wMorph [] wTws wTok [] wText = .ok wOut ∧
      (wOut.result.highlighted = spliceFrom wText 0 wOut.result.matches' ∧
        spliceFromPlain wText 0 wOut.result.matches' = wText ∧
        wText.length ≤ wOut.result.highlighted.length) :=
  ⟨by decide, by decide, by decide,
   C1_highlighted_reconstructs wLow wMorph [] wTws wTok [] wText wOut
     (by decide) (by decide) (by decide)⟩

/-- C1 counterexample to the unamended claim: on the non-empty whitespace
text " " the result exists but its highlighted field is the empty string,
which is shorter than the input and does not reproduce it after removing
marker pairs (there are none to remove). -/
theorem C1_blank_input_counterexample :
    Except.map (fun o => o.result.highlighted)
        (analyze_text wLow wMorph [] wTws (fun _ => []) [] [' ']) = .ok [] ∧
      ([] : List Char) ≠ [' '] ∧
      ([] : List Char).length < [' '].length := by
  decide

/-- C3 (amended): for every input text containing at least one
non-whitespace character in which no token resolves to a target lemma,
analyze_text returns total = 0, matches = [], and the original text as the
highlighted field. (The unamended claim, over every non-empty text, fails
on whitespace-only input, where highlighted is emptied.) Stated on a
coherent cache with idempotent lowercasing of the tokens. -/
theorem C3_no_target_returns_text (low : List Char → List Char)
    (morph : List Char → Except PyErr (List (List Char)))
    (words_lemma : Cache) (target_words : List (List Char))
    (tok : List Char → List Token) (cache : Cache) (text : List Char)
    (hblank : text.all Char.isWhitespace = false)
    (hc : coherent low morph words_lemma cache = true)
    (hlows : lowsIdemOn low (tok text) = true)
    (hno : noTargetTokens low morph words_lemma target_words (tok text) = true) :
    Except.map (fun o => o.result)
        (analyze_text low morph words_lemma target_words tok cache text) =
      .ok ⟨text, [], [], 0, 0⟩ := by
  have hlows' : ∀ t ∈ tok text, low (low t.text) = low t.text :=
    fun t ht => eq_of_beq ((List.all_eq_true.mp hlows) t ht)
  rw [analyze_result_of_coherent hblank hc hlows',
    resolveMatches_noTarget (tok text) hno]
  rfl

/-- C3 witness: the fixture text "a b" against the target set \x7b"c"\x7d:
no match, text returned unchanged, zero counts. -/
theorem C3_no_target_returns_text_witness :
    wText.all Char.isWhitespace = false ∧
      coherent wLow wMorph [] [] = true ∧
      lowsIdemOn wLow (wTok wText) = true ∧
      noTargetTokens wLow wMorph [] [['c']] (wTok wText) = true ∧
      Except.map (fun o => o.result)
          (analyze_text wLow wMorph [] [['c']] wTok [] wText) =
        .ok ⟨wText, [], [], 0, 0⟩ :=
  ⟨by decide, by decide, by decide, by decide,
   C3_no_target_returns_text wLow wMorph [] [['c']] wTok [] wText
     (by decide) (by decide) (by decide) (by decide)⟩

/-- C3 counterexample to the unamended claim: the text "  " is non-empty
and contains no occurrence of any target word (it has no tokens at all),
yet highlighted is "" and not the original text. -/
theorem C3_whitespace_counterexample :
    ([' ', ' '] : List Char) ≠ [] ∧
      noTargetTokens wLow wMorph [] wTws
          ((fun _ : List Char => ([] : List Token)) [' ', ' ']) = true ∧
      Except.map (fun o => o.result.highlighted)
          (analyze_text wLow wMorph [] wTws (fun _ => []) [] [' ', ' ']) =
        .ok [] ∧
      ([] : List Char) ≠ [' ', ' '] := by
  decide

/-- C6: every match of a successful analyze_text call carries a lemma that
passed the target-set membership test; the match list is in left-to-right
text order (non-decreasing, in fact increasing, start offsets) and no two
matches overlap (each match ends no later than the next starts), under the
tokenizer guarantees. -/
theorem C6_matches_target_ordered (low : List Char → List Char)
    (morph : List Char → Except PyErr (List (List Char)))
    (words_lemma : Cache) (target_words : List (List Char))
    (tok : List Char → List Token) (cache : Cache) (text : List Char)
    (out : AnalyzeOut) (m : MatchRec)
    (htok : tokensOK text (tok text) = true)
    (h : analyze_text low morph words_lemma target_words tok cache text = .ok out)
    (hm : m ∈ out.result.matches') :
    (target_words.map low).contains m.normal = true ∧
      matchChainOK out.result.matches' = true ∧
      startsMonoOK out.result.matches' = true := by
  rcases analyze_text_ok_cases h with ⟨_, hout⟩ | ⟨_, o, ha, hout⟩
  · subst hout
    exact absurd hm (by simp)
  · subst hout
    obtain ⟨hmf, hpair⟩ := matches_facts htok ha
    obtain ⟨_, htg⟩ := analyzeTokens_sublist_targets (tok text) cache o ha
    have hmono : List.Pairwise (fun a b : MatchRec => a.start ≤ b.start) o.matches' :=
      List.Pairwise.imp_of_mem
        (fun {a b} hma hmb hr => le_trans (le_of_lt (hmf a hma).1) hr) hpair
    exact ⟨htg m hm, pairwise_matchChainOK _ hpair, pairwise_startsMonoOK _ hmono⟩

/-- C6 witness: the fixture match of "a b" is a target member and the
one-element match list is trivially ordered and disjoint. -/
theorem C6_matches_target_ordered_witness :
    tokensOK wText (wTok wText) = true ∧
      analyze_text wLow wMorph [] wTws wTok [] wText = .ok wOut ∧
      (⟨['a'], ['a'], 0, 1⟩ : MatchRec) ∈ wOut.result.matches' ∧
      ((wTws.map wLow).contains (MatchRec.mk ['a'] ['a'] 0 1).normal = true ∧
        matchChainOK wOut.result.matches' = true ∧
        startsMonoOK wOut.result.matches' = true) :=
  ⟨by decide, by decide, by decide,
   C6_matches_target_ordered wLow wMorph [] wTws wTok [] wText wOut
     ⟨['a'], ['a'], 0, 1⟩ (by decide) (by decide) (by decide)⟩

/-- C7: cache transparency. After a successful normalize_word call, the
repeated call for the same word returns the same value with the cache
unchanged and an empty event trace — so no engine call and no print — and
cache coherence is preserved; moreover the result dict of analyze_text on
any coherent cache equals the result dict on the empty cache: the cache is
an invisible optimization. -/
theorem C7_cache_transparency (low : List Char → List Char)
    (morph : List Char → Except PyErr (List (List Char)))
    (words_lemma : Cache) (target_words : List (List Char))
    (tok : List Char → List Token) (cache : Cache) (text : List Char)
    (w : List Char) (r : NormResult)
    (hw : low (low w) = low w)
    (hc : coherent low morph words_lemma cache = true)
    (hlows : lowsIdemOn low (tok text) = true)
    (h1 : normalize_word low morph words_lemma cache w = .ok r) :
    normalize_word low morph words_lemma r.cache w = .ok ⟨r.value, r.cache, []⟩ ∧
      coherent low morph words_lemma r.cache = true ∧
      Except.map (fun o => o.result)
          (analyze_text low morph words_lemma target_words tok cache text) =
        Except.map (fun o => o.result)
          (analyze_text low morph words_lemma target_words tok [] text) := by
  refine ⟨normalize_word_second h1, normalize_word_coherent hw hc h1, ?_⟩
  have hlows' : ∀ t ∈ tok text, low (low t.text) = low t.text :=
    fun t ht => eq_of_beq ((List.all_eq_true.mp hlows) t ht)
  by_cases hbl : text.all Char.isWhitespace = true
  · rw [analyze_text_blank hbl, analyze_text_blank hbl]
    rfl
  · have hbl' : text.all Char.isWhitespace = false := by
      revert hbl
      cases text.all Char.isWhitespace <;> simp
    rw [analyze_result_of_coherent hbl' hc hlows',
      analyze_result_of_coherent hbl'
        (show coherent low morph words_lemma [] = true from rfl) hlows']

/-- C7 witness: resolving "a" twice from the empty cache; the second call
is a silent cache hit, coherence is kept, and the fixture analysis result
is the same from the grown cache as from the empty cache. -/
theorem C7_cache_transparency_witness :
    wLow (wLow ['a']) = wLow ['a'] ∧
      coherent wLow wMorph [] [] = true ∧
      lowsIdemOn wLow (wTok wText) = true ∧
      normalize_word wLow wMorph [] [] ['a'] =
        .ok ⟨['a'], [(['a'], ['a'])],
             [.engineCall ['a'], .printEngine ['a'] ['a']]⟩ ∧
      (normalize_word wLow wMorph [] [(['a'], ['a'])] ['a'] =
          .ok ⟨['a'], [(['a'], ['a'])], []⟩ ∧
        coherent wLow wMorph [] [(['a'], ['a'])] = true ∧
        Except.map (fun o => o.result)
            (analyze_text wLow wMorph [] wTws wTok [] wText) =
          Except.map (fun o => o.result)
            (analyze_text wLow wMorph [] wTws wTok [] wText)) :=
  ⟨by decide, by decide, by decide, by decide,
   C7_cache_transparency wLow wMorph [] wTws wTok [] wText ['a']
     ⟨['a'], [(['a'], ['a'])], [.engineCall ['a'], .printEngine ['a'] ['a']]⟩
     (by decide) (by decide) (by decide) (by decide)⟩

/-- C10: every match of a successful analyze_text call has valid offsets
into the original text — 0 ≤ start < stop ≤ length — and its word field is
exactly the slice of the original text at [start, stop), under the
tokenizer guarantees. -/
theorem C10_match_offsets_valid (low : List Char → List Char)
    (morph : List Char → Except PyErr (List (List Char)))
    (words_lemma : Cache) (target_words : List (List Char))
    (tok : List Char → List Token) (cache : Cache) (text : List Char)
    (out : AnalyzeOut) (m : MatchRec)
    (htok : tokensOK text (tok text) = true)
    (h : analyze_text low morph words_lemma target_words tok cache text = .ok out)
    (hm : m ∈ out.result.matches') :
    m.start < m.stop ∧ m.stop ≤ text.length ∧
      m.word = slice text m.start m.stop := by
  rcases analyze_text_ok_cases h with ⟨_, hout⟩ | ⟨_, o, ha, hout⟩
  · subst hout
    exact absurd hm (by simp)
  · subst hout
    obtain ⟨hmf, _⟩ := matches_facts htok ha
    exact hmf m hm

/-- C10 witness: the fixture match spans [0, 1) of "a b" and its word is
that slice. -/
theorem C10_match_offsets_valid_witness :
    tokensOK wText (wTok wText) = true ∧
      analyze_text wLow wMorph [] wTws wTok [] wText = .ok wOut ∧
      (⟨['a'], ['a'], 0, 1⟩ : MatchRec) ∈ wOut.result.matches' ∧
      ((MatchRec.mk ['a'] ['a'] 0 1).start < (MatchRec.mk ['a'] ['a'] 0 1).stop ∧
        (MatchRec.mk ['a'] ['a'] 0 1).stop ≤ wText.length ∧
        (MatchRec.mk ['a'] ['a'] 0 1).word =
          slice wText (MatchRec.mk ['a'] ['a'] 0 1).start
            (MatchRec.mk ['a'] ['a'] 0 1).stop) :=
  ⟨by decide, by decide, by decide,
   C10_match_offsets_valid wLow wMorph [] wTws wTok [] wText wOut
     ⟨['a'], ['a'], 0, 1⟩ (by decide) (by decide) (by decide)⟩

end Yat
